import Mathlib

/-!
Shallow embedding of the dijkstra-analysis repository (src/structures.py and
src/dijkstra.py) and verification of the frozen claims about it.

Modelling conventions.

Numeric values: node distances (the `length` attribute) and edge weights are
Python floats in the source, initialised to `math.inf` and only ever combined
by addition and order comparison.  We model them by `WithTop Int`: exact
integer arithmetic extended with the absorbing top element standing for
`math.inf`.  (Exact rational/real arithmetic would behave identically for
every property proved here; integers keep every definition kernel-executable.)

Object identity: Python nodes are mutable reference-identity objects.  Each
node object is modelled by a natural-number identity; the mutable fields of
all node objects form a total map `Store : Nat → NodeRec`.  `id(x)`-based
membership tests become `Nat` equality on identities; `==`-based tests use
`Node.__eq__` from structures.py, which compares the `length` fields.

Graphs: `Graph` carries the ordered node-identity sequence and the ordered
edge sequence, as in structures.py.  The adjacency lists (`inbound`,
`outbound`) live in the per-node records, as in the source, where
`Edge.__init__` self-registers into them; the predicate `Wired` below states
the canonical wiring that `Edge.__init__` establishes.

The operation counter (`OpsTracker`) never influences control flow or any
distance; the two shortest-path embeddings therefore omit the pure-counting
calls, and the counter is modelled separately for the claims about it.  The
cost added by `add_heap_op` is `log2 n + 1`, a real number; the tracker state
records the list of arguments `n` symbolically, and theorems interpret the
accumulated total through `Real.logb 2`.

Both `while` loops are embedded with an explicit fuel parameter; exhausted
fuel yields `none`.  The chosen fuel is sufficient for every well-formed
wired graph (proved below for the claims that need it), so `none` never
occurs on real inputs.
-/

/-- Numeric values of the program: exact numbers plus `math.inf` (top). -/
abbrev EV := WithTop Int

/-- An edge of structures.py: tail and head node identities and a weight.
Edges are immutable after construction (structures.py lines 69-98). -/
structure Edge where
  tail : Nat
  head : Nat
  weight : Int
deriving DecidableEq, Repr

/-- The mutable fields of one Node object (structures.py lines 16-33):
payload `data`, adjacency lists `inbound` and `outbound`, and the mutable
distance field `length` (default `math.inf`). -/
structure NodeRec where
  data : Int
  inbound : List Edge
  outbound : List Edge
  length : EV
deriving DecidableEq

/-- The state of all node objects, indexed by object identity. -/
abbrev Store := Nat → NodeRec

/-- A Graph of structures.py: ordered node sequence and edge sequence. -/
structure Graph where
  nodes : List Nat
  edges : List Edge
deriving DecidableEq

/-- The single kind of mutation both algorithms perform: assignment to the
`length` field of one node (for example dijkstra.py lines 127, 132, 148,
170, 175, 204). -/
def setLength (st : Store) (i : Nat) (v : EV) : Store :=
  fun j => if j = i then { st i with length := v } else st j

/-- Canonical adjacency wiring established by `Edge.__init__`
(structures.py lines 87-92): every node object's outbound list consists of
exactly the graph edges whose tail is that node, in edge order. -/
def Wired (g : Graph) (st : Store) : Prop :=
  ∀ u, (st u).outbound = g.edges.filter (fun e => decide (e.tail = u))

/-- Node.__eq__ (structures.py lines 52-55): equality compares only the
`length` fields (the isinstance test always succeeds between nodes). -/
def nodeEqb (a b : NodeRec) : Bool := decide (a.length = b.length)

/-- Node.__lt__ (structures.py lines 57-60): order compares only the
`length` fields. -/
def nodeLtb (a b : NodeRec) : Bool := decide (a.length < b.length)

/-- The Python membership test `x in visited` on a list of nodes: CPython
scans the list and succeeds on the first element identical to or `==`-equal
to `x`; with Node.__eq__ this is a `length`-value test. -/
def pyIn (st : Store) (x : Nat) (visited : List Nat) : Bool :=
  visited.any (fun v => decide (v = x) || nodeEqb (st v) (st x))

/-- The identity membership test `id(x) in (id(v) for v in visited)` used at
dijkstra.py lines 110 and 190. -/
def idIn (x : Nat) (visited : List Nat) : Bool :=
  visited.any (fun v => decide (v = x))

/-- Comparison used by the heap: `Node.__lt__` on the current lengths. -/
def nodeLt (st : Store) (a b : Nat) : Bool := nodeLtb (st a) (st b)

/-! CPython heapq, specialised to lists of node identities compared by a
boolean relation `lt`.  `siftdownAux` and `siftupAux` transcribe
`heapq._siftdown` and `heapq._siftup`; the extra first argument is fuel
bounding the loop iteration count (the position strictly moves toward the
root, respectively toward the end, so the fuel chosen by the callers is
never exhausted; the fuel-0 fallback just places `newitem`). -/

/-- heapq._siftdown: move `newitem` toward the root from `pos` while it is
`lt` the parent, shifting parents down; finally store it. -/
def siftdownAux (lt : Nat → Nat → Bool) (newitem startpos : Nat) :
    Nat → Nat → List Nat → List Nat
  | 0, pos, heap => heap.set pos newitem
  | fuel+1, pos, heap =>
    if startpos < pos then
      let parentpos := (pos - 1) / 2
      let parent := heap.getD parentpos 0
      if lt newitem parent then
        siftdownAux lt newitem startpos fuel parentpos (heap.set pos parent)
      else heap.set pos newitem
    else heap.set pos newitem

/-- heapq._siftup: move the hole at `pos` down to a leaf following the
smaller child, store `newitem` in the leaf, then restore with _siftdown. -/
def siftupAux (lt : Nat → Nat → Bool) (newitem startpos : Nat) :
    Nat → Nat → List Nat → List Nat
  | 0, pos, heap => siftdownAux lt newitem startpos pos pos (heap.set pos newitem)
  | fuel+1, pos, heap =>
    let endpos := heap.length
    let childpos := 2 * pos + 1
    if childpos < endpos then
      let rightpos := childpos + 1
      let childpos2 :=
        if rightpos < endpos && !(lt (heap.getD childpos 0) (heap.getD rightpos 0))
        then rightpos else childpos
      siftupAux lt newitem startpos fuel childpos2 (heap.set pos (heap.getD childpos2 0))
    else siftdownAux lt newitem startpos pos pos (heap.set pos newitem)

/-- heapq.heappush: append the item and sift it down toward the root. -/
def heappush (lt : Nat → Nat → Bool) (heap : List Nat) (item : Nat) : List Nat :=
  siftdownAux lt item 0 heap.length heap.length (heap ++ [item])

/-- heapq.heappop: pop the last element; if the heap remains non-empty,
return the old root after moving the last element to the root and sifting
up.  Popping an empty heap raises IndexError, modelled by `none`. -/
def heappop (lt : Nat → Nat → Bool) (heap : List Nat) : Option (Nat × List Nat) :=
  if heap.length = 0 then none
  else
    let lastelt := heap.getD (heap.length - 1) 0
    let rest := heap.take (heap.length - 1)
    if rest.length = 0 then some (lastelt, rest)
    else some (rest.getD 0 0, siftupAux lt lastelt 0 rest.length 0 (rest.set 0 lastelt))

/-! The operation counter (dijkstra.py lines 20-71).  `simple_ops` is an
integer; `heap_ops` is a float accumulating `log2(heap_size) + 1` per heap
operation.  The accumulated heap total is modelled symbolically as the list
of `heap_size` arguments already accepted by `add_heap_op`; its real value
is interpreted in the theorems as the sum of `Real.logb 2 a + 1` over the
list.  The counter influences no distance computation. -/

/-- OpsTracker.add_heap_op (dijkstra.py lines 55-65): computes
`math.log2(heap_size) + 1` and adds it to the running total.  `math.log2`
raises ValueError (math domain error) when its argument is not positive,
modelled by `none`; otherwise the argument is recorded. -/
def add_heap_op (heapOps : List Nat) (heap_size : Nat) : Option (List Nat) :=
  if heap_size = 0 then none else some (heapOps ++ [heap_size])

/-- The argument passed to `add_heap_op` at the push site, dijkstra.py line
208: `max(1, len(heap))`, the clamp avoiding `log2(0)`. -/
def heapPushOpArg (heapLen : Nat) : Nat := max 1 heapLen

/-! Initialisation common to both algorithms (dijkstra.py lines 126-132 and
169-175): set the start node's length to 0 and the length of every graph
node that is not (identically) the start node to `math.inf`. -/

/-- Distance initialisation of both algorithms. -/
def initLengths (g : Graph) (start : Nat) (st : Store) : Store :=
  g.nodes.foldl (fun acc n => if ¬ (n = start) then setLength acc n ⊤ else acc)
    (setLength st start 0)

/-! The simple variant (dijkstra.py lines 74-148). -/

/-- get_best_edge (dijkstra.py lines 87-121): scan every outbound edge of
every visited node in order; among the edges whose head is not identically
in `visited`, keep the first edge whose criterion
`edge.tail.length + edge.weight` is strictly smaller than the best so far;
start from the sentinel `(None, math.inf)`. -/
def get_best_edge (st : Store) (visited : List Nat) : Option Edge × EV :=
  visited.foldl
    (fun acc u =>
      (st u).outbound.foldl
        (fun acc2 e =>
          if idIn e.head visited then acc2
          else
            if (st e.tail).length + (e.weight : EV) < acc2.2 then
              (some e, (st e.tail).length + (e.weight : EV))
            else acc2)
        acc)
    (none, ⊤)

/-- The main loop of simple_shortest_path (dijkstra.py lines 136-148): ask
get_best_edge for the next edge; stop when it returns the sentinel,
otherwise append the head to `visited` and set its length to the returned
criterion.  Fuel bounds the iteration count. -/
def simpleLoop : Nat → Store → List Nat → Option Store
  | 0, st, visited =>
    match get_best_edge st visited with
    | (none, _) => some st
    | (some _, _) => none
  | fuel+1, st, visited =>
    match get_best_edge st visited with
    | (none, _) => some st
    | (some e, w) => simpleLoop fuel (setLength st e.head w) (visited ++ [e.head])

/-- simple_shortest_path (dijkstra.py lines 74-148): initialise distances,
then run the loop starting from `visited = [start]`.  The function mutates
only node lengths; the graph is returned unchanged alongside the final
store.  The fuel `g.edges.length + 2` suffices for every wired graph, since
each iteration visits a previously unvisited edge head. -/
def simple_shortest_path (g : Graph) (start : Nat) (st : Store) :
    Option (Graph × Store) :=
  (simpleLoop (g.edges.length + 2) (initLengths g start st) [start]).map
    (fun s => (g, s))

/-! The heap variant (dijkstra.py lines 151-209). -/

/-- The inner for-loop of heap_shortest_path (dijkstra.py lines 196-209):
for each outbound edge of the popped node `current`, compute
`current.length + edge.weight`; if strictly smaller than the head's current
length, update the head's length; then, if the head is not `in` visited —
the `==`-based membership test of Node.__eq__ — push it. -/
def processEdges (visited : List Nat) (current : Nat) :
    List Edge → Store → List Nat → Store × List Nat
  | [], st, heap => (st, heap)
  | e :: es, st, heap =>
    let criterion := (st current).length + (e.weight : EV)
    let st2 := if criterion < (st e.head).length then setLength st e.head criterion else st
    let heap2 := if pyIn st2 e.head visited then heap else heappush (nodeLt st2) heap e.head
    processEdges visited current es st2 heap2

/-- The main loop of heap_shortest_path (dijkstra.py lines 180-209): while
the heap is non-empty, pop the minimum; skip it if its identity is already
in `visited` (lazy deletion); otherwise mark it visited and process its
outbound edges.  Fuel bounds the iteration count. -/
def heapLoop : Nat → Store → List Nat → List Nat → Option Store
  | 0, st, _, heap => if heap.isEmpty then some st else none
  | fuel+1, st, visited, heap =>
    if heap.isEmpty then some st
    else
      match heappop (nodeLt st) heap with
      | none => none
      | some (current, heap1) =>
        if idIn current visited then heapLoop fuel st visited heap1
        else
          let visited2 := visited ++ [current]
          let pr := processEdges visited2 current ((st current).outbound) st heap1
          heapLoop fuel pr.1 visited2 pr.2

/-- heap_shortest_path (dijkstra.py lines 151-209): initialise distances,
then run the loop with empty visited list and `heap = [start]`.  The fuel
`(g.edges.length + 2) ^ 2` suffices for every wired graph: each iteration
consumes one heap entry, and at most `1 + |edges|` entries are ever
inserted. -/
def heap_shortest_path (g : Graph) (start : Nat) (st : Store) :
    Option (Graph × Store) :=
  (heapLoop ((g.edges.length + 2) * (g.edges.length + 2)) (initLengths g start st)
      [] [start]).map (fun s => (g, s))

/-! Observation helpers used to state claims about run results. -/

/-- The graph component of a run result. -/
def graphOf (r : Option (Graph × Store)) : Option Graph := r.map (fun p => p.1)

/-- The final length of node `i` after a run. -/
def lengthOf (r : Option (Graph × Store)) (i : Nat) : Option EV :=
  r.map (fun p => (p.2 i).length)

/-- The final non-length fields (data, inbound, outbound) of node `i`. -/
def fieldsOf (r : Option (Graph × Store)) (i : Nat) :
    Option (Int × List Edge × List Edge) :=
  r.map (fun p => ((p.2 i).data, (p.2 i).inbound, (p.2 i).outbound))

/-- Reachability along the adjacency structure of a store: the edge chains
the algorithms can follow from `s` through outbound lists. -/
inductive Reaches (st : Store) (s : Nat) : Nat → Prop
  | refl : Reaches st s s
  | step {u : Nat} {e : Edge} : Reaches st s u → e ∈ (st u).outbound →
      Reaches st s e.head

/-! Concrete instances used by counterexamples and witnesses. -/

/-- Edge 0 → 1 of weight 0 (a legal non-negative weight). -/
def eZ01 : Edge := ⟨0, 1, 0⟩

/-- Edge 1 → 2 of weight 1. -/
def eZ12 : Edge := ⟨1, 2, 1⟩

/-- Three-node graph 0 → 1 (weight 0) → 2 (weight 1), all members. -/
def gZ : Graph := ⟨[0, 1, 2], [eZ01, eZ12]⟩

/-- The store of gZ as structures.py builds it: wired adjacency, lengths
at the default `math.inf`. -/
def stZ : Store := fun i =>
  if i = 0 then ⟨0, [], [eZ01], ⊤⟩
  else if i = 1 then ⟨1, [eZ01], [eZ12], ⊤⟩
  else if i = 2 then ⟨2, [eZ12], [], ⊤⟩
  else ⟨0, [], [], ⊤⟩

/-- One-node edgeless graph (its node is 0). -/
def gOne : Graph := ⟨[0], []⟩

/-- Two-node edgeless graph. -/
def gTwo : Graph := ⟨[0, 1], []⟩

/-- A store of isolated nodes with default lengths. -/
def stIso : Store := fun i => ⟨Int.ofNat i, [], [], ⊤⟩

/-- A store in which every node has length 5: distinct, never-visited nodes
compare `==`-equal to visited ones. -/
def stFive : Store := fun i => ⟨Int.ofNat i, [], [], ((5 : Int) : EV)⟩

/-- C1: on the graph 0 → 1 (weight 0) → 2 (weight 1) — all weights
non-negative, all edge endpoints and the start node members of the graph —
the two variants disagree: the simple variant leaves node 2 at distance 1,
the heap variant leaves it at `math.inf`.  The head node 1, once relaxed to
distance 0, compares `==`-equal to the visited start node (Node.__eq__
compares lengths), so it is never pushed and node 2 is never relaxed.  This
contradicts the heap function's own docstring, which promises shortest
distances for every connected node. -/
theorem claim1_bug :
    ((0 : Nat) ∈ gZ.nodes ∧
      ∀ e ∈ gZ.edges, 0 ≤ e.weight ∧ e.tail ∈ gZ.nodes ∧ e.head ∈ gZ.nodes) ∧
    lengthOf (simple_shortest_path gZ 0 stZ) 2 = some ((1 : Int) : EV) ∧
    lengthOf (heap_shortest_path gZ 0 stZ) 2 = some ⊤ := by decide

/-- C2: after the heap variant runs on the same graph, the edge
`eZ12 = (1, 2, 1)` has a reachable tail (final distance 0) but the head's
final distance `math.inf` exceeds `0 + 1`: the claimed relaxation
inequality `distance(v) ≤ distance(u) + w` fails on the code. -/
theorem claim2_bug :
    eZ12 ∈ gZ.edges ∧
    lengthOf (heap_shortest_path gZ 0 stZ) 1 = some ((0 : Int) : EV) ∧
    lengthOf (heap_shortest_path gZ 0 stZ) 2 = some ⊤ ∧
    ¬ ((⊤ : EV) ≤ ((0 : Int) : EV) + (eZ12.weight : EV)) := by decide

/-- C3: in the first iteration of the heap loop on the same graph (node 0
popped and marked visited, edge eZ01 processed), the relaxation test
`current.length + weight < head.length` succeeds and the head's distance is
updated to 0, yet the head is NOT pushed: the push is gated by the
`==`-based visited test, and the freshly relaxed head compares equal to the
visited start node.  The claimed unconditional push after a relaxation does
not happen. -/
theorem claim3_bug :
    ((initLengths gZ 0 stZ) 0).length + (eZ01.weight : EV)
        < ((initLengths gZ 0 stZ) 1).length ∧
    ((processEdges [0] 0 (((initLengths gZ 0 stZ) 0).outbound)
        (initLengths gZ 0 stZ) []).1 1).length = ((0 : Int) : EV) ∧
    (processEdges [0] 0 (((initLengths gZ 0 stZ) 0).outbound)
        (initLengths gZ 0 stZ) []).2 = [] := by decide

/-- C4 counterexample: with start node 9, which is not a member of the
one-node graph `gOne`, both operations run to completion and produce an
answer (the start gets distance 0, the graph node keeps `math.inf`); no
error is signalled, contradicting the claimed fail-fast behaviour. -/
theorem claim4_counterexample :
    ¬ ((9 : Nat) ∈ gOne.nodes) ∧
    (simple_shortest_path gOne 9 stIso).isSome = true ∧
    (heap_shortest_path gOne 9 stIso).isSome = true ∧
    lengthOf (simple_shortest_path gOne 9 stIso) 9 = some ((0 : Int) : EV) ∧
    lengthOf (heap_shortest_path gOne 9 stIso) 9 = some ((0 : Int) : EV) ∧
    lengthOf (simple_shortest_path gOne 9 stIso) 0 = some ⊤ := by decide

/-- C5 counterexample: `add_heap_op(0)` does not succeed — `math.log2`
raises a math domain error on 0, because the clamp `max(1, ...)` is not
inside `add_heap_op` (it sits at the heappush call site, dijkstra.py line
208).  This refutes the claim that the operation succeeds on every
non-negative argument with the argument clamped to 1. -/
theorem claim5_counterexample : add_heap_op [] 0 = none := rfl

/-- C5 amended: for every positive heap_size the counter operation succeeds
and adds exactly `log2(heap_size) + 1` to the heap variant's total (the
total being interpreted as the sum of `log2 a + 1` over the recorded
arguments); `add_heap_op` itself performs no clamping — it fails on 0 —
and the `max(1, len(heap))` clamp at the push call site keeps every
argument at least 1, so the algorithm never evaluates `log2(0)`. -/
theorem claim5_amended (ops : List Nat) (heap_size : Nat) (h : 1 ≤ heap_size) :
    add_heap_op ops heap_size = some (ops ++ [heap_size]) ∧
    ((ops ++ [heap_size]).map (fun a => Real.logb 2 (a : ℝ) + 1)).sum
      = (ops.map (fun a => Real.logb 2 (a : ℝ) + 1)).sum
        + (Real.logb 2 ((heap_size : ℝ)) + 1) ∧
    add_heap_op ops 0 = none ∧
    (∀ n : Nat, 1 ≤ heapPushOpArg n) := by
  refine ⟨?_, ?_, rfl, fun n => le_max_left 1 n⟩
  · have h0 : ¬ heap_size = 0 := by omega
    simp [add_heap_op, h0]
  · simp

/-- Witness for C5 amended at heap_size 1. -/
theorem claim5_amended_witness :
    1 ≤ 1 ∧
    (add_heap_op [] 1 = some ([] ++ [1]) ∧
      (([] ++ [1]).map (fun a => Real.logb 2 (a : ℝ) + 1)).sum
        = (([] : List Nat).map (fun a => Real.logb 2 (a : ℝ) + 1)).sum
          + (Real.logb 2 (((1 : Nat) : ℝ)) + 1) ∧
      add_heap_op [] 0 = none ∧
      (∀ n : Nat, 1 ≤ heapPushOpArg n)) :=
  ⟨by decide, claim5_amended [] 1 (by decide)⟩

/-! Frame lemmas: `setLength` touches only the `length` field of one node. -/

theorem setLength_data (st : Store) (i : Nat) (v : EV) (j : Nat) :
    ((setLength st i v) j).data = (st j).data := by
  unfold setLength
  split <;> simp_all

theorem setLength_inbound (st : Store) (i : Nat) (v : EV) (j : Nat) :
    ((setLength st i v) j).inbound = (st j).inbound := by
  unfold setLength
  split <;> simp_all

theorem setLength_outbound (st : Store) (i : Nat) (v : EV) (j : Nat) :
    ((setLength st i v) j).outbound = (st j).outbound := by
  unfold setLength
  split <;> simp_all

theorem setLength_length (st : Store) (i : Nat) (v : EV) (j : Nat) :
    ((setLength st i v) j).length = if j = i then v else (st j).length := by
  unfold setLength
  split <;> simp_all

theorem setLength_length_ne (st : Store) (i : Nat) (v : EV) (j : Nat)
    (h : j ≠ i) : ((setLength st i v) j).length = (st j).length := by
  rw [setLength_length, if_neg h]

theorem setLength_length_self (st : Store) (i : Nat) (v : EV) :
    ((setLength st i v) i).length = v := by
  rw [setLength_length, if_pos rfl]

/-- Two stores with identical non-length fields everywhere: the relation
that frames the mutations of both algorithms. -/
def sameSkeleton (st st' : Store) : Prop :=
  ∀ i, (st' i).data = (st i).data ∧ (st' i).inbound = (st i).inbound ∧
    (st' i).outbound = (st i).outbound

theorem sameSkeleton_refl (st : Store) : sameSkeleton st st :=
  fun _ => ⟨rfl, rfl, rfl⟩

theorem sameSkeleton_trans {st1 st2 st3 : Store} (h1 : sameSkeleton st1 st2)
    (h2 : sameSkeleton st2 st3) : sameSkeleton st1 st3 := by
  intro i
  exact ⟨(h2 i).1.trans (h1 i).1, (h2 i).2.1.trans (h1 i).2.1,
    (h2 i).2.2.trans (h1 i).2.2⟩

theorem sameSkeleton_setLength (st : Store) (i : Nat) (v : EV) :
    sameSkeleton st (setLength st i v) := by
  intro j
  exact ⟨setLength_data _ _ _ _, setLength_inbound _ _ _ _, setLength_outbound _ _ _ _⟩

/-! Membership and length lemmas for the CPython heapq embedding. -/

theorem getD_mem_or {α : Type} [Inhabited α] (l : List α) (i : Nat) (d : α) :
    l.getD i d ∈ l ∨ l.getD i d = d := by
  rcases Nat.lt_or_ge i l.length with h | h
  · left
    rw [List.getD_eq_getElem l d h]
    exact l.getElem_mem h
  · right
    rw [List.getD_eq_default]
    exact h

theorem getD_mem {α : Type} [Inhabited α] (l : List α) (i : Nat) (d : α)
    (h : i < l.length) : l.getD i d ∈ l := by
  rw [List.getD_eq_getElem l d h]
  exact l.getElem_mem h

theorem siftdownAux_length (lt : Nat → Nat → Bool) (ni sp : Nat) :
    ∀ (fuel pos : Nat) (h : List Nat),
      (siftdownAux lt ni sp fuel pos h).length = h.length := by
  intro fuel
  induction fuel with
  | zero =>
    intro pos h
    exact List.length_set h pos ni
  | succ fuel ih =>
    intro pos h
    simp only [siftdownAux]
    by_cases h1 : sp < pos
    · rw [if_pos h1]
      by_cases h2 : lt ni (h.getD ((pos - 1) / 2) 0) = true
      · rw [if_pos h2, ih, List.length_set]
      · rw [if_neg h2, List.length_set]
    · rw [if_neg h1, List.length_set]

theorem siftdownAux_mem (lt : Nat → Nat → Bool) (ni sp : Nat) :
    ∀ (fuel pos : Nat) (h : List Nat) (y : Nat), pos < h.length →
      y ∈ siftdownAux lt ni sp fuel pos h → y ∈ h ∨ y = ni := by
  intro fuel
  induction fuel with
  | zero =>
    intro pos h y _ hy
    exact List.mem_or_eq_of_mem_set hy
  | succ fuel ih =>
    intro pos h y hpos hy
    simp only [siftdownAux] at hy
    by_cases h1 : sp < pos
    · rw [if_pos h1] at hy
      by_cases h2 : lt ni (h.getD ((pos - 1) / 2) 0) = true
      · rw [if_pos h2] at hy
        have hplt : (pos - 1) / 2 < h.length := by
          have : (pos - 1) / 2 ≤ pos - 1 := Nat.div_le_self _ _
          omega
        have hplt2 : (pos - 1) / 2 < (h.set pos (h.getD ((pos - 1) / 2) 0)).length := by
          rw [List.length_set]
          exact hplt
        rcases ih _ _ y hplt2 hy with hm | hm
        · rcases List.mem_or_eq_of_mem_set hm with hm2 | hm2
          · exact Or.inl hm2
          · exact Or.inl (hm2 ▸ getD_mem h ((pos - 1) / 2) 0 hplt)
        · exact Or.inr hm
      · rw [if_neg h2] at hy
        exact List.mem_or_eq_of_mem_set hy
    · rw [if_neg h1] at hy
      exact List.mem_or_eq_of_mem_set hy

theorem siftupAux_length (lt : Nat → Nat → Bool) (ni sp : Nat) :
    ∀ (fuel pos : Nat) (h : List Nat),
      (siftupAux lt ni sp fuel pos h).length = h.length := by
  intro fuel
  induction fuel with
  | zero =>
    intro pos h
    rw [siftupAux, siftdownAux_length, List.length_set]
  | succ fuel ih =>
    intro pos h
    simp only [siftupAux]
    by_cases h1 : 2 * pos + 1 < h.length
    · rw [if_pos h1, ih, List.length_set]
    · rw [if_neg h1, siftdownAux_length, List.length_set]

theorem siftupAux_mem (lt : Nat → Nat → Bool) (ni sp : Nat) :
    ∀ (fuel pos : Nat) (h : List Nat) (y : Nat), pos < h.length →
      y ∈ siftupAux lt ni sp fuel pos h → y ∈ h ∨ y = ni := by
  intro fuel
  induction fuel with
  | zero =>
    intro pos h y hpos hy
    rw [siftupAux] at hy
    have hpos2 : pos < (h.set pos ni).length := by
      rw [List.length_set]
      exact hpos
    rcases siftdownAux_mem lt ni sp pos pos _ y hpos2 hy with hm | hm
    · rcases List.mem_or_eq_of_mem_set hm with hm2 | hm2
      · exact Or.inl hm2
      · exact Or.inr hm2
    · exact Or.inr hm
  | succ fuel ih =>
    intro pos h y hpos hy
    simp only [siftupAux] at hy
    by_cases h1 : 2 * pos + 1 < h.length
    · rw [if_pos h1] at hy
      set cp2 : Nat :=
        if 2 * pos + 1 + 1 < h.length &&
            !(lt (h.getD (2 * pos + 1) 0) (h.getD (2 * pos + 1 + 1) 0))
        then 2 * pos + 1 + 1 else 2 * pos + 1 with hcp2
      have hcplt : cp2 < h.length := by
        rw [hcp2]
        split <;> rename_i hsp
        · have := of_decide_eq_true (Bool.and_elim_left hsp)
          omega
        · omega
      have hcplt2 : cp2 < (h.set pos (h.getD cp2 0)).length := by
        rw [List.length_set]
        exact hcplt
      rcases ih _ _ y hcplt2 hy with hm | hm
      · rcases List.mem_or_eq_of_mem_set hm with hm2 | hm2
        · exact Or.inl hm2
        · exact Or.inl (hm2 ▸ getD_mem h cp2 0 hcplt)
      · exact Or.inr hm
    · rw [if_neg h1] at hy
      have hpos2 : pos < (h.set pos ni).length := by
        rw [List.length_set]
        exact hpos
      rcases siftdownAux_mem lt ni sp pos pos _ y hpos2 hy with hm | hm
      · rcases List.mem_or_eq_of_mem_set hm with hm2 | hm2
        · exact Or.inl hm2
        · exact Or.inr hm2
      · exact Or.inr hm

theorem heappush_length (lt : Nat → Nat → Bool) (h : List Nat) (x : Nat) :
    (heappush lt h x).length = h.length + 1 := by
  rw [heappush, siftdownAux_length, List.length_append, List.length_cons,
    List.length_nil]

theorem heappush_mem (lt : Nat → Nat → Bool) (h : List Nat) (x y : Nat)
    (hy : y ∈ heappush lt h x) : y ∈ h ∨ y = x := by
  rw [heappush] at hy
  have hpos : h.length < (h ++ [x]).length := by
    rw [List.length_append]
    simp
  rcases siftdownAux_mem lt x 0 h.length h.length _ y hpos hy with hm | hm
  · rcases List.mem_append.1 hm with hm2 | hm2
    · exact Or.inl hm2
    · exact Or.inr (by simpa using hm2)
  · exact Or.inr hm

theorem heappop_eq_some (lt : Nat → Nat → Bool) (h : List Nat)
    (hne : h ≠ []) : ∃ x h2, heappop lt h = some (x, h2) ∧ x ∈ h ∧
      (∀ y ∈ h2, y ∈ h) ∧ h2.length = h.length - 1 := by
  have hlen : h.length ≠ 0 := by
    intro h0
    exact hne (List.length_eq_zero.1 h0)
  rw [heappop, if_neg hlen]
  by_cases h1 : (h.take (h.length - 1)).length = 0
  · rw [if_pos h1]
    refine ⟨_, _, rfl, getD_mem h (h.length - 1) 0 (by omega), ?_, ?_⟩
    · intro y hy
      exact absurd hy (by simp [List.length_eq_zero.1 h1])
    · rw [List.length_take]
      omega
  · rw [if_neg h1]
    have htk : h.take (h.length - 1) ⊆ h := List.take_subset _ h
    have hlt0 : 0 < (h.take (h.length - 1)).length := by omega
    refine ⟨_, _, rfl, htk (getD_mem _ 0 0 hlt0), ?_, ?_⟩
    · intro y hy
      have hpos : (0 : Nat) <
          ((h.take (h.length - 1)).set 0 (h.getD (h.length - 1) 0)).length := by
        rw [List.length_set]
        exact hlt0
      rcases siftupAux_mem lt (h.getD (h.length - 1) 0) 0 _ 0 _ y hpos hy with hm | hm
      · rcases List.mem_or_eq_of_mem_set hm with hm2 | hm2
        · exact htk hm2
        · exact hm2 ▸ getD_mem h (h.length - 1) 0 (by omega)
      · exact hm ▸ getD_mem h (h.length - 1) 0 (by omega)
    · rw [siftupAux_length, List.length_set, List.length_take]
      omega

/-! Lemmas about the shared distance initialisation. -/

theorem initFold_skeleton (start : Nat) :
    ∀ (l : List Nat) (acc : Store),
      sameSkeleton acc
        (l.foldl (fun a n => if ¬ (n = start) then setLength a n ⊤ else a) acc) := by
  intro l
  induction l with
  | nil =>
    intro acc
    exact sameSkeleton_refl acc
  | cons a l ih =>
    intro acc
    rw [List.foldl_cons]
    refine sameSkeleton_trans ?_ (ih _)
    by_cases ha : a = start
    · rw [if_neg (by simp [ha])]
      exact sameSkeleton_refl acc
    · rw [if_pos ha]
      exact sameSkeleton_setLength acc a ⊤

theorem initFold_length (start : Nat) :
    ∀ (l : List Nat) (acc : Store) (i : Nat),
      ((l.foldl (fun a n => if ¬ (n = start) then setLength a n ⊤ else a) acc) i).length
        = if i ∈ l ∧ i ≠ start then ⊤ else (acc i).length := by
  intro l
  induction l with
  | nil =>
    intro acc i
    simp
  | cons a l ih =>
    intro acc i
    rw [List.foldl_cons]
    by_cases ha : a = start
    · rw [if_neg (not_not_intro ha), ih]
      by_cases hi : i ∈ l ∧ i ≠ start
      · rw [if_pos hi, if_pos ⟨List.mem_cons_of_mem a hi.1, hi.2⟩]
      · rw [if_neg hi, if_neg ?_]
        intro hcon
        rcases List.mem_cons.1 hcon.1 with h1 | h1
        · exact hcon.2 (h1.trans ha)
        · exact hi ⟨h1, hcon.2⟩
    · rw [if_pos ha, ih, setLength_length]
      by_cases hi : i ∈ l ∧ i ≠ start
      · rw [if_pos hi, if_pos ⟨List.mem_cons_of_mem a hi.1, hi.2⟩]
      · rw [if_neg hi]
        by_cases hia : i = a
        · rw [if_pos hia, if_pos ⟨List.mem_cons.2 (Or.inl hia), hia ▸ ha⟩]
        · rw [if_neg hia, if_neg ?_]
          intro hcon
          rcases List.mem_cons.1 hcon.1 with h1 | h1
          · exact hia h1
          · exact hi ⟨h1, hcon.2⟩

theorem initLengths_skeleton (g : Graph) (start : Nat) (st : Store) :
    sameSkeleton st (initLengths g start st) := by
  unfold initLengths
  exact sameSkeleton_trans (sameSkeleton_setLength st start 0)
    (initFold_skeleton start g.nodes (setLength st start 0))

theorem initLengths_length (g : Graph) (start : Nat) (st : Store) (i : Nat) :
    ((initLengths g start st) i).length
      = if i ∈ g.nodes ∧ i ≠ start then ⊤
        else if i = start then 0 else (st i).length := by
  unfold initLengths
  rw [initFold_length, setLength_length]

theorem initLengths_start (g : Graph) (start : Nat) (st : Store) :
    ((initLengths g start st) start).length = 0 := by
  rw [initLengths_length]
  simp

theorem initLengths_outbound (g : Graph) (start : Nat) (st : Store) (i : Nat) :
    ((initLengths g start st) i).outbound = (st i).outbound :=
  (initLengths_skeleton g start st i).2.2

/-! Lemmas about the heap variant's edge-processing loop. -/

theorem processEdges_skeleton (vs : List Nat) (cur : Nat) :
    ∀ (es : List Edge) (st : Store) (heap : List Nat),
      sameSkeleton st (processEdges vs cur es st heap).1 := by
  intro es
  induction es with
  | nil =>
    intro st heap
    exact sameSkeleton_refl st
  | cons e es ih =>
    intro st heap
    simp only [processEdges]
    refine sameSkeleton_trans ?_ (ih _ _)
    split
    · exact sameSkeleton_setLength _ _ _
    · exact sameSkeleton_refl st

theorem processEdges_heap_mem (vs : List Nat) (cur : Nat) :
    ∀ (es : List Edge) (st : Store) (heap : List Nat) (y : Nat),
      y ∈ (processEdges vs cur es st heap).2 →
        y ∈ heap ∨ ∃ e ∈ es, y = e.head := by
  intro es
  induction es with
  | nil =>
    intro st heap y hy
    exact Or.inl hy
  | cons e es ih =>
    intro st heap y hy
    simp only [processEdges] at hy
    rcases ih _ _ y hy with hm | hm
    · by_cases hp : pyIn (if (st cur).length + (e.weight : EV) < (st e.head).length
          then setLength st e.head ((st cur).length + (e.weight : EV)) else st)
          e.head vs = true
      · rw [if_pos hp] at hm
        exact Or.inl hm
      · rw [if_neg hp] at hm
        rcases heappush_mem _ _ _ _ hm with hm2 | hm2
        · exact Or.inl hm2
        · exact Or.inr ⟨e, List.mem_cons_self e es, hm2⟩
    · rcases hm with ⟨e2, he2, hy2⟩
      exact Or.inr ⟨e2, List.mem_cons_of_mem e he2, hy2⟩

/-! Frame lemmas for the two main loops: only `length` fields change. -/

theorem heapLoop_skeleton :
    ∀ (fuel : Nat) (st : Store) (vs heap : List Nat) (st' : Store),
      heapLoop fuel st vs heap = some st' → sameSkeleton st st' := by
  intro fuel
  induction fuel with
  | zero =>
    intro st vs heap st' h
    simp only [heapLoop] at h
    split at h
    · cases h
      exact sameSkeleton_refl st
    · cases h
  | succ fuel ih =>
    intro st vs heap st' h
    simp only [heapLoop] at h
    split at h
    · cases h
      exact sameSkeleton_refl st
    · split at h
      · cases h
      · split at h
        · exact ih _ _ _ _ h
        · exact sameSkeleton_trans (processEdges_skeleton _ _ _ _ _) (ih _ _ _ _ h)

theorem simpleLoop_skeleton :
    ∀ (fuel : Nat) (st : Store) (vs : List Nat) (st' : Store),
      simpleLoop fuel st vs = some st' → sameSkeleton st st' := by
  intro fuel
  induction fuel with
  | zero =>
    intro st vs st' h
    simp only [simpleLoop] at h
    split at h
    · cases h
      exact sameSkeleton_refl st
    · cases h
  | succ fuel ih =>
    intro st vs st' h
    simp only [simpleLoop] at h
    split at h
    · cases h
      exact sameSkeleton_refl st
    · exact sameSkeleton_trans (sameSkeleton_setLength _ _ _) (ih _ _ _ h)

/-- C9: neither operation adds or removes nodes or edges — the graph's node
and edge sequences come back unchanged — and for every node object only the
`length` (distance) field can change: `data`, `inbound` and `outbound` are
identical before and after either run.  No statement in either function
writes to any other field or to the graph's sequences. -/
theorem claim9_frame (g : Graph) (s : Nat) (st : Store)
    (hA : (simple_shortest_path g s st).isSome = true)
    (hB : (heap_shortest_path g s st).isSome = true) :
    graphOf (simple_shortest_path g s st) = some g ∧
    graphOf (heap_shortest_path g s st) = some g ∧
    (∀ i, fieldsOf (simple_shortest_path g s st) i
        = some ((st i).data, (st i).inbound, (st i).outbound)) ∧
    (∀ i, fieldsOf (heap_shortest_path g s st) i
        = some ((st i).data, (st i).inbound, (st i).outbound)) := by
  rcases hA1 : simpleLoop (g.edges.length + 2) (initLengths g s st) [s] with _ | stA
  · rw [simple_shortest_path, hA1] at hA
    cases hA
  rcases hB1 : heapLoop ((g.edges.length + 2) * (g.edges.length + 2))
      (initLengths g s st) [] [s] with _ | stB
  · rw [heap_shortest_path, hB1] at hB
    cases hB
  have hskA : sameSkeleton st stA :=
    sameSkeleton_trans (initLengths_skeleton g s st) (simpleLoop_skeleton _ _ _ _ hA1)
  have hskB : sameSkeleton st stB :=
    sameSkeleton_trans (initLengths_skeleton g s st) (heapLoop_skeleton _ _ _ _ _ hB1)
  refine ⟨?_, ?_, ?_, ?_⟩
  · rw [graphOf, simple_shortest_path, hA1, Option.map_map]
    rfl
  · rw [graphOf, heap_shortest_path, hB1, Option.map_map]
    rfl
  · intro i
    rw [fieldsOf, simple_shortest_path, hA1, Option.map_map]
    simp only [Option.map, Function.comp_apply]
    rw [(hskA i).1, (hskA i).2.1, (hskA i).2.2]
  · intro i
    rw [fieldsOf, heap_shortest_path, hB1, Option.map_map]
    simp only [Option.map, Function.comp_apply]
    rw [(hskB i).1, (hskB i).2.1, (hskB i).2.2]

/-- Witness for C9 at the concrete graph gZ. -/
theorem claim9_frame_witness :
    ((simple_shortest_path gZ 0 stZ).isSome = true ∧
      (heap_shortest_path gZ 0 stZ).isSome = true) ∧
    (graphOf (simple_shortest_path gZ 0 stZ) = some gZ ∧
      graphOf (heap_shortest_path gZ 0 stZ) = some gZ ∧
      (∀ i, fieldsOf (simple_shortest_path gZ 0 stZ) i
          = some ((stZ i).data, (stZ i).inbound, (stZ i).outbound)) ∧
      (∀ i, fieldsOf (heap_shortest_path gZ 0 stZ) i
          = some ((stZ i).data, (stZ i).inbound, (stZ i).outbound))) :=
  ⟨⟨by decide, by decide⟩, claim9_frame gZ 0 stZ (by decide) (by decide)⟩

/-! Characterisation of get_best_edge: it scans the in-order candidate list
(outbound edges of visited nodes whose head is not identically visited) and
keeps the first edge attaining the minimal criterion. -/

/-- The selection criterion of get_best_edge (dijkstra.py line 113):
`edge.tail.length + edge.weight`. -/
def crit (st : Store) (e : Edge) : EV := (st e.tail).length + (e.weight : EV)

/-- One candidate step of get_best_edge: replace the best pair only when
the criterion is strictly smaller (dijkstra.py lines 116-119). -/
def bestStep (st : Store) (acc : Option Edge × EV) (e : Edge) : Option Edge × EV :=
  if crit st e < acc.2 then (some e, crit st e) else acc

/-- The candidate edges of get_best_edge, in scan order: for each node of
`us` in order, its outbound edges whose head is not identically in `vs`. -/
def cands (st : Store) (vs : List Nat) : List Nat → List Edge
  | [] => []
  | u :: us => (st u).outbound.filter (fun e => !(idIn e.head vs)) ++ cands st vs us

theorem cands_mem (st : Store) (vs : List Nat) :
    ∀ (us : List Nat) (e : Edge), e ∈ cands st vs us →
      ∃ u ∈ us, e ∈ (st u).outbound ∧ idIn e.head vs = false := by
  intro us
  induction us with
  | nil =>
    intro e he
    exact absurd he (List.not_mem_nil e)
  | cons u us ih =>
    intro e he
    rcases List.mem_append.1 he with hm | hm
    · have hm2 := List.mem_filter.1 hm
      exact ⟨u, List.mem_cons_self u us, hm2.1, by simpa using hm2.2⟩
    · rcases ih e hm with ⟨u2, hu2, h1, h2⟩
      exact ⟨u2, List.mem_cons_of_mem u hu2, h1, h2⟩

theorem foldl_body_filter (st : Store) (vs : List Nat) :
    ∀ (l : List Edge) (acc : Option Edge × EV),
      l.foldl (fun acc2 e => if idIn e.head vs then acc2
        else if (st e.tail).length + (e.weight : EV) < acc2.2
          then (some e, (st e.tail).length + (e.weight : EV)) else acc2) acc
      = (l.filter (fun e => !(idIn e.head vs))).foldl (bestStep st) acc := by
  intro l
  induction l with
  | nil =>
    intro acc
    rfl
  | cons e l ih =>
    intro acc
    rw [List.foldl_cons, List.filter_cons]
    cases hb : idIn e.head vs with
    | true => simp only [hb, if_true, Bool.not_true, Bool.false_eq_true, if_false, ih]
    | false =>
      simp only [hb, Bool.false_eq_true, if_false, Bool.not_false, if_true,
        List.foldl_cons, ih]
      rfl

theorem gbe_eq_cands (st : Store) (vs : List Nat) :
    ∀ (us : List Nat) (acc : Option Edge × EV),
      us.foldl (fun acc u => (st u).outbound.foldl
        (fun acc2 e => if idIn e.head vs then acc2
          else if (st e.tail).length + (e.weight : EV) < acc2.2
            then (some e, (st e.tail).length + (e.weight : EV)) else acc2) acc) acc
      = (cands st vs us).foldl (bestStep st) acc := by
  intro us
  induction us with
  | nil =>
    intro acc
    rfl
  | cons u us ih =>
    intro acc
    rw [List.foldl_cons, ih, cands, List.foldl_append, foldl_body_filter]

theorem get_best_edge_eq (st : Store) (vs : List Nat) :
    get_best_edge st vs = (cands st vs vs).foldl (bestStep st) (none, ⊤) := by
  rw [get_best_edge]
  exact gbe_eq_cands st vs vs (none, ⊤)

/-- The fold of `bestStep` either keeps the accumulator (no candidate beats
it) or returns the first candidate attaining the minimum: every earlier
candidate has a strictly larger criterion and no later one a strictly
smaller one. -/
theorem bestStep_spec (st : Store) :
    ∀ (l : List Edge) (b : Option Edge) (w : EV),
      (l.foldl (bestStep st) (b, w) = (b, w) ∧ ∀ e ∈ l, ¬ crit st e < w) ∨
      (∃ l1 e l2, l = l1 ++ e :: l2 ∧
        l.foldl (bestStep st) (b, w) = (some e, crit st e) ∧ crit st e < w ∧
        (∀ e1 ∈ l1, crit st e < crit st e1) ∧
        (∀ e2 ∈ l2, ¬ crit st e2 < crit st e)) := by
  intro l
  induction l with
  | nil =>
    intro b w
    exact Or.inl ⟨rfl, by simp⟩
  | cons a l ih =>
    intro b w
    rw [List.foldl_cons]
    by_cases ha : crit st a < w
    · have hstep : bestStep st (b, w) a = (some a, crit st a) := by
        rw [bestStep, if_pos ha]
      rw [hstep]
      rcases ih (some a) (crit st a) with ⟨hf, hall⟩ | ⟨m1, e, m2, hsplit, hres, hlt, h5, h6⟩
      · exact Or.inr ⟨[], a, l, by simp, hf, ha, by simp, hall⟩
      · right
        refine ⟨a :: m1, e, m2, by rw [hsplit]; rfl, hres, lt_trans hlt ha, ?_, h6⟩
        intro e1 he1
        rcases List.mem_cons.1 he1 with h | h
        · rw [h]
          exact hlt
        · exact h5 e1 h
    · have hstep : bestStep st (b, w) a = (b, w) := by
        rw [bestStep, if_neg ha]
      rw [hstep]
      rcases ih b w with ⟨hf, hall⟩ | ⟨m1, e, m2, hsplit, hres, hlt, h5, h6⟩
      · left
        refine ⟨hf, ?_⟩
        intro e he
        rcases List.mem_cons.1 he with h | h
        · rw [h]
          exact ha
        · exact hall e h
      · right
        refine ⟨a :: m1, e, m2, by rw [hsplit]; rfl, hres, hlt, ?_, h6⟩
        intro e1 he1
        rcases List.mem_cons.1 he1 with h | h
        · rw [h]
          exact lt_of_lt_of_le hlt (le_of_not_lt ha)
        · exact h5 e1 h

/-- Any edge returned by get_best_edge is an outbound edge of some visited
node, its head is not identically visited, and the returned value is its
criterion. -/
theorem get_best_edge_some_mem (st : Store) (vs : List Nat) (e : Edge) (w : EV)
    (h : get_best_edge st vs = (some e, w)) :
    (∃ u ∈ vs, e ∈ (st u).outbound) ∧ idIn e.head vs = false ∧ w = crit st e := by
  rw [get_best_edge_eq] at h
  rcases bestStep_spec st (cands st vs vs) none ⊤ with ⟨hf, _⟩ | ⟨m1, e2, m2, hsplit, hres, _, _, _⟩
  · rw [hf] at h
    cases h
  · rw [hres] at h
    have he : e2 = e ∧ (crit st e2 : EV) = w := by
      have h1 := congrArg Prod.fst h
      have h2 := congrArg Prod.snd h
      simp only at h1 h2
      exact ⟨Option.some.inj h1, h2⟩
    rcases he with ⟨he1, he2⟩
    rw [he1] at hsplit he2
    have hmem : e ∈ cands st vs vs := by
      rw [hsplit]
      exact List.mem_append.2 (Or.inr (List.mem_cons_self e m2))
    rcases cands_mem st vs vs e hmem with ⟨u, hu, h1, h2⟩
    exact ⟨⟨u, hu, h1⟩, h2, he2.symm⟩

/-- C8: each candidate-selection call of the simple variant scans the
outbound edges of visited nodes in order, restricted to edges whose head is
not yet visited (by identity); with no candidates it returns the sentinel
`(None, math.inf)`, on which the main loop terminates; otherwise it returns
the first candidate attaining the minimal criterion
`tail.length + edge.weight` — every earlier candidate in scan order has a
strictly larger criterion (strict less-than comparison: earlier candidates
win ties) and no candidate anywhere a strictly smaller one.  The finiteness
hypothesis on visited lengths and the tail-wiring hypothesis hold in every
iteration of the algorithm on a wired graph. -/
theorem claim8_get_best_edge (st : Store) (visited : List Nat)
    (hfin : ∀ v ∈ visited, (st v).length ≠ ⊤)
    (htail : ∀ u ∈ visited, ∀ e ∈ (st u).outbound, e.tail = u) :
    (∀ e ∈ cands st visited visited,
      (∃ u ∈ visited, e ∈ (st u).outbound) ∧ idIn e.head visited = false) ∧
    (cands st visited visited = [] → get_best_edge st visited = (none, ⊤)) ∧
    (cands st visited visited ≠ [] →
      ∃ e, get_best_edge st visited = (some e, crit st e)) ∧
    (∀ e w, get_best_edge st visited = (some e, w) →
      w = crit st e ∧
      (∃ l1 l2, cands st visited visited = l1 ++ e :: l2 ∧
        ∀ e1 ∈ l1, crit st e < crit st e1) ∧
      (∀ e2 ∈ cands st visited visited, ¬ crit st e2 < crit st e)) ∧
    (∀ w, get_best_edge st visited = (none, w) →
      ∀ fuel, simpleLoop fuel st visited = some st) := by
  refine ⟨?_, ?_, ?_, ?_, ?_⟩
  · intro e he
    rcases cands_mem st visited visited e he with ⟨u, hu, h1, h2⟩
    exact ⟨⟨u, hu, h1⟩, h2⟩
  · intro hc
    rw [get_best_edge_eq, hc]
    rfl
  · intro hc
    rcases bestStep_spec st (cands st visited visited) none ⊤ with
      ⟨hf, hall⟩ | ⟨m1, e, m2, hsplit, hres, _, _, _⟩
    · exfalso
      rcases List.exists_mem_of_ne_nil _ hc with ⟨e0, he0⟩
      rcases cands_mem st visited visited e0 he0 with ⟨u, hu, h1, _⟩
      have htl : e0.tail = u := htail u hu e0 h1
      have hne : crit st e0 ≠ ⊤ := by
        rw [crit, htl, WithTop.add_ne_top]
        exact ⟨hfin u hu, WithTop.coe_ne_top⟩
      exact hall e0 he0 (lt_top_iff_ne_top.2 hne)
    · exact ⟨e, by rw [get_best_edge_eq, hres]⟩
  · intro e w h
    rw [get_best_edge_eq] at h
    rcases bestStep_spec st (cands st visited visited) none ⊤ with
      ⟨hf, _⟩ | ⟨m1, e2, m2, hsplit, hres, _, h5, h6⟩
    · rw [hf] at h
      cases h
    · rw [hres] at h
      have he : e2 = e ∧ (crit st e2 : EV) = w := by
        have h1 := congrArg Prod.fst h
        have h2 := congrArg Prod.snd h
        simp only at h1 h2
        exact ⟨Option.some.inj h1, h2⟩
      rcases he with ⟨he1, he2⟩
      rw [he1] at hsplit he2 h5 h6
      refine ⟨he2.symm, ⟨m1, m2, hsplit, h5⟩, ?_⟩
      intro e3 he3
      rw [hsplit] at he3
      rcases List.mem_append.1 he3 with hm | hm
      · exact not_lt_of_gt (h5 e3 hm)
      · rcases List.mem_cons.1 hm with hm2 | hm2
        · rw [hm2]
          exact lt_irrefl _
        · exact h6 e3 hm2
  · intro w h fuel
    cases fuel with
    | zero => simp [simpleLoop, h]
    | succ fuel => simp [simpleLoop, h]

/-- Witness for C8 in the state reached by simple_shortest_path on gZ after
initialisation, with visited = [0]. -/
theorem claim8_witness :
    ((∀ v ∈ [0], ((initLengths gZ 0 stZ) v).length ≠ ⊤) ∧
      (∀ u ∈ [0], ∀ e ∈ ((initLengths gZ 0 stZ) u).outbound, e.tail = u)) ∧
    ((∀ e ∈ cands (initLengths gZ 0 stZ) [0] [0],
      (∃ u ∈ [0], e ∈ ((initLengths gZ 0 stZ) u).outbound) ∧
        idIn e.head [0] = false) ∧
    (cands (initLengths gZ 0 stZ) [0] [0] = [] →
      get_best_edge (initLengths gZ 0 stZ) [0] = (none, ⊤)) ∧
    (cands (initLengths gZ 0 stZ) [0] [0] ≠ [] →
      ∃ e, get_best_edge (initLengths gZ 0 stZ) [0]
        = (some e, crit (initLengths gZ 0 stZ) e)) ∧
    (∀ e w, get_best_edge (initLengths gZ 0 stZ) [0] = (some e, w) →
      w = crit (initLengths gZ 0 stZ) e ∧
      (∃ l1 l2, cands (initLengths gZ 0 stZ) [0] [0] = l1 ++ e :: l2 ∧
        ∀ e1 ∈ l1, crit (initLengths gZ 0 stZ) e < crit (initLengths gZ 0 stZ) e1) ∧
      (∀ e2 ∈ cands (initLengths gZ 0 stZ) [0] [0],
        ¬ crit (initLengths gZ 0 stZ) e2 < crit (initLengths gZ 0 stZ) e)) ∧
    (∀ w, get_best_edge (initLengths gZ 0 stZ) [0] = (none, w) →
      ∀ fuel, simpleLoop fuel (initLengths gZ 0 stZ) [0]
        = some (initLengths gZ 0 stZ))) :=
  ⟨⟨by decide, by decide⟩,
    claim8_get_best_edge (initLengths gZ 0 stZ) [0] (by decide) (by decide)⟩

/-! The start node keeps distance 0 (claim C7). -/

theorem idIn_iff (x : Nat) (vs : List Nat) : idIn x vs = true ↔ x ∈ vs := by
  simp only [idIn, List.any_eq_true, decide_eq_true_eq]
  constructor
  · rintro ⟨v, hv, rfl⟩
    exact hv
  · intro hx
    exact ⟨x, hx, rfl⟩

theorem idIn_eq_false (x : Nat) (vs : List Nat) :
    idIn x vs = false ↔ ¬ x ∈ vs := by
  rw [← idIn_iff x vs]
  cases idIn x vs <;> simp

/-- In the simple loop, the length of a node already in `visited` is never
reassigned: the chosen head is never identically in `visited`. -/
theorem simpleLoop_preserve (x : Nat) :
    ∀ (fuel : Nat) (st : Store) (vs : List Nat) (st' : Store), x ∈ vs →
      simpleLoop fuel st vs = some st' → (st' x).length = (st x).length := by
  intro fuel
  induction fuel with
  | zero =>
    intro st vs st' hx h
    simp only [simpleLoop] at h
    split at h
    · cases h
      rfl
    · cases h
  | succ fuel ih =>
    intro st vs st' hx h
    simp only [simpleLoop] at h
    split at h
    · cases h
      rfl
    · rename_i e w heq
      have hmem := get_best_edge_some_mem _ _ _ _ heq
      have hne : x ≠ e.head := by
        intro hcon
        rw [← hcon] at hmem
        exact (idIn_eq_false x vs).1 hmem.2.1 hx
      have := ih _ _ _ (List.mem_append_left _ hx) h
      rw [this, setLength_length_ne _ _ _ _ hne]

/-- Processing the outbound edges of a popped node preserves: all graph
nodes have non-negative lengths, the start keeps length 0, and the heap
holds only graph nodes (given non-negative weights and member heads). -/
theorem processEdges_nonneg (g : Graph) (s cur : Nat) (vs : List Nat) :
    ∀ (es : List Edge) (st : Store) (heap : List Nat),
      (∀ e ∈ es, e.head ∈ g.nodes ∧ 0 ≤ e.weight) →
      (∀ n ∈ g.nodes, 0 ≤ (st n).length) →
      (st s).length = 0 →
      cur ∈ g.nodes →
      (∀ y ∈ heap, y ∈ g.nodes) →
      (∀ n ∈ g.nodes, 0 ≤ ((processEdges vs cur es st heap).1 n).length) ∧
      ((processEdges vs cur es st heap).1 s).length = 0 ∧
      (∀ y ∈ (processEdges vs cur es st heap).2, y ∈ g.nodes) := by
  intro es
  induction es with
  | nil =>
    intro st heap _ hnn hs0 _ hh
    exact ⟨hnn, hs0, hh⟩
  | cons e es ih =>
    intro st heap hes hnn hs0 hcur hh
    have hco : (0 : EV) ≤ (e.weight : EV) := by
      exact_mod_cast (hes e (List.mem_cons_self e es)).2
    have hcrit0 : (0 : EV) ≤ (st cur).length + (e.weight : EV) :=
      add_nonneg (hnn cur hcur) hco
    simp only [processEdges]
    set st2 := if (st cur).length + (e.weight : EV) < (st e.head).length
      then setLength st e.head ((st cur).length + (e.weight : EV)) else st with hst2
    have hnn2 : ∀ n ∈ g.nodes, 0 ≤ (st2 n).length := by
      intro n hn
      rw [hst2]
      split
      · rw [setLength_length]
        split
        · exact hcrit0
        · exact hnn n hn
      · exact hnn n hn
    have hs02 : (st2 s).length = 0 := by
      rw [hst2]
      split
      · rename_i hrel
        by_cases hhead : s = e.head
        · rw [← hhead, hs0] at hrel
          exact absurd hrel (not_lt.2 hcrit0)
        · rw [setLength_length_ne _ _ _ _ hhead, hs0]
      · exact hs0
    have hh2 : ∀ y ∈ (if pyIn st2 e.head vs then heap
        else heappush (nodeLt st2) heap e.head), y ∈ g.nodes := by
      intro y hy
      split at hy
      · exact hh y hy
      · rcases heappush_mem _ _ _ _ hy with hm | hm
        · exact hh y hm
        · exact hm ▸ (hes e (List.mem_cons_self e es)).1
    exact ih st2 _ (fun e2 he2 => hes e2 (List.mem_cons_of_mem e he2)) hnn2 hs02 hcur hh2

/-- Through the heap loop, all graph-node lengths stay non-negative and the
start keeps length 0, provided every outbound edge anywhere has a member
head and non-negative weight and the heap holds only graph nodes. -/
theorem heapLoop_start_zero (g : Graph) (s : Nat) :
    ∀ (fuel : Nat) (st : Store) (vs heap : List Nat) (st' : Store),
      (∀ u, ∀ e ∈ (st u).outbound, e.head ∈ g.nodes ∧ 0 ≤ e.weight) →
      (∀ n ∈ g.nodes, 0 ≤ (st n).length) →
      (st s).length = 0 →
      (∀ y ∈ heap, y ∈ g.nodes) →
      heapLoop fuel st vs heap = some st' → (st' s).length = 0 := by
  intro fuel
  induction fuel with
  | zero =>
    intro st vs heap st' _ _ hs0 _ h
    simp only [heapLoop] at h
    split at h
    · cases h
      exact hs0
    · cases h
  | succ fuel ih =>
    intro st vs heap st' hout hnn hs0 hh h
    simp only [heapLoop] at h
    split at h
    · cases h
      exact hs0
    · rename_i hemp
      rcases hpop : heappop (nodeLt st) heap with _ | ⟨cur, heap1⟩
      case none =>
        rw [hpop] at h
        cases h
      rw [hpop] at h
      have hne : heap ≠ [] := by
        intro hcon
        rw [hcon] at hemp
        exact hemp rfl
      rcases heappop_eq_some (nodeLt st) heap hne with ⟨x, h2, hx1, hx2, hx3, _⟩
      rw [hpop] at hx1
      have hxc : x = cur ∧ h2 = heap1 := by
        have h1 := congrArg (fun o => Option.map Prod.fst o) hx1
        have h2e := congrArg (fun o => Option.map Prod.snd o) hx1
        simp only [Option.map] at h1 h2e
        exact ⟨(Option.some.inj h1).symm, (Option.some.inj h2e).symm⟩
      rw [hxc.1] at hx2
      rw [hxc.2] at hx3
      simp only at h
      split at h
      · exact ih st vs heap1 st' hout hnn hs0 (fun y hy => hh y (hx3 y hy)) h
      · have hcur : cur ∈ g.nodes := hh cur hx2
        have hpr := processEdges_nonneg g s cur (vs ++ [cur]) ((st cur).outbound) st heap1
          (hout cur) hnn hs0 hcur (fun y hy => hh y (hx3 y hy))
        have hsk := processEdges_skeleton (vs ++ [cur]) cur ((st cur).outbound) st heap1
        have hout2 : ∀ u, ∀ e ∈ ((processEdges (vs ++ [cur]) cur
            ((st cur).outbound) st heap1).1 u).outbound,
            e.head ∈ g.nodes ∧ 0 ≤ e.weight := by
          intro u e he
          rw [(hsk u).2.2] at he
          exact hout u e he
        exact ih _ _ _ _ hout2 hpr.1 hpr.2.1 hpr.2.2 h

/-- C7: after either variant runs on a graph with non-negative edge weights
whose edge heads are members (the spec's graph invariant), from a member
start node, the start node's final distance is exactly 0: the simple
variant never re-selects a visited node as a head, and in the heap variant
every relaxation criterion is non-negative, so none beats the start's 0. -/
theorem claim7_start_zero (g : Graph) (s : Nat) (st : Store)
    (hmem : s ∈ g.nodes)
    (hw : ∀ e ∈ g.edges, 0 ≤ e.weight)
    (hends : ∀ e ∈ g.edges, e.head ∈ g.nodes)
    (hwire : Wired g st)
    (hA : (simple_shortest_path g s st).isSome = true)
    (hB : (heap_shortest_path g s st).isSome = true) :
    lengthOf (simple_shortest_path g s st) s = some 0 ∧
    lengthOf (heap_shortest_path g s st) s = some 0 := by
  rcases hA1 : simpleLoop (g.edges.length + 2) (initLengths g s st) [s] with _ | stA
  · rw [simple_shortest_path, hA1] at hA
    cases hA
  rcases hB1 : heapLoop ((g.edges.length + 2) * (g.edges.length + 2))
      (initLengths g s st) [] [s] with _ | stB
  · rw [heap_shortest_path, hB1] at hB
    cases hB
  constructor
  · rw [lengthOf, simple_shortest_path, hA1, Option.map_map]
    simp only [Option.map, Function.comp_apply]
    rw [simpleLoop_preserve s _ _ _ _ (List.mem_singleton.2 rfl) hA1,
      initLengths_start]
  · rw [lengthOf, heap_shortest_path, hB1, Option.map_map]
    simp only [Option.map, Function.comp_apply]
    have hout : ∀ u, ∀ e ∈ ((initLengths g s st) u).outbound,
        e.head ∈ g.nodes ∧ 0 ≤ e.weight := by
      intro u e he
      rw [initLengths_outbound, hwire u] at he
      have := List.mem_filter.1 he
      exact ⟨hends e this.1, hw e this.1⟩
    have hnn : ∀ n ∈ g.nodes, 0 ≤ ((initLengths g s st) n).length := by
      intro n hn
      rw [initLengths_length]
      split
      · exact le_top
      · split
        · exact le_refl 0
        · rename_i h1 h2
          exact absurd ⟨hn, h2⟩ h1
    have hh : ∀ y ∈ [s], y ∈ g.nodes := by
      intro y hy
      rw [List.mem_singleton.1 hy]
      exact hmem
    rw [heapLoop_start_zero g s _ _ _ _ _ hout hnn (initLengths_start g s st) hh hB1]

/-- The concrete store stZ is wired as structures.py builds it. -/
theorem stZ_wired : Wired gZ stZ := fun u =>
  match u with
  | 0 => rfl
  | 1 => rfl
  | 2 => rfl
  | _+3 => rfl

/-- Witness for C7 at the concrete graph gZ with start 0. -/
theorem claim7_witness :
    ((0 : Nat) ∈ gZ.nodes ∧ (∀ e ∈ gZ.edges, 0 ≤ e.weight) ∧
      (∀ e ∈ gZ.edges, e.head ∈ gZ.nodes) ∧ Wired gZ stZ ∧
      (simple_shortest_path gZ 0 stZ).isSome = true ∧
      (heap_shortest_path gZ 0 stZ).isSome = true) ∧
    (lengthOf (simple_shortest_path gZ 0 stZ) 0 = some 0 ∧
      lengthOf (heap_shortest_path gZ 0 stZ) 0 = some 0) :=
  ⟨⟨by decide, by decide, by decide, stZ_wired, by decide, by decide⟩,
    claim7_start_zero gZ 0 stZ (by decide) (by decide) (by decide) stZ_wired
      (by decide) (by decide)⟩

/-! Unreachable nodes keep distance infinity (claim C6): every finite
length arises from a chain of relaxations along outbound edges starting at
the start node. -/

/-- Processing the outbound edges of a reachable popped node preserves:
every graph node with finite length is reachable, and every heap entry is
reachable. -/
theorem processEdges_reach (st0 : Store) (g : Graph) (s cur : Nat)
    (vs : List Nat) (hcurR : Reaches st0 s cur) :
    ∀ (es : List Edge) (st : Store) (heap : List Nat),
      (∀ e ∈ es, e ∈ (st0 cur).outbound) →
      (∀ n ∈ g.nodes, (st n).length ≠ ⊤ → Reaches st0 s n) →
      (∀ y ∈ heap, Reaches st0 s y) →
      (∀ n ∈ g.nodes, ((processEdges vs cur es st heap).1 n).length ≠ ⊤ →
        Reaches st0 s n) ∧
      (∀ y ∈ (processEdges vs cur es st heap).2, Reaches st0 s y) := by
  intro es
  induction es with
  | nil =>
    intro st heap _ hinv hheap
    exact ⟨hinv, hheap⟩
  | cons e es ih =>
    intro st heap hes hinv hheap
    have hheadR : Reaches st0 s e.head :=
      Reaches.step hcurR (hes e (List.mem_cons_self e es))
    simp only [processEdges]
    set st2 := if (st cur).length + (e.weight : EV) < (st e.head).length
      then setLength st e.head ((st cur).length + (e.weight : EV)) else st with hst2
    have hinv2 : ∀ n ∈ g.nodes, (st2 n).length ≠ ⊤ → Reaches st0 s n := by
      intro n hn hne
      rw [hst2] at hne
      by_cases hhead : n = e.head
      · exact hhead ▸ hheadR
      · split at hne
        · rw [setLength_length_ne _ _ _ _ hhead] at hne
          exact hinv n hn hne
        · exact hinv n hn hne
    have hheap2 : ∀ y ∈ (if pyIn st2 e.head vs then heap
        else heappush (nodeLt st2) heap e.head), Reaches st0 s y := by
      intro y hy
      split at hy
      · exact hheap y hy
      · rcases heappush_mem _ _ _ _ hy with hm | hm
        · exact hheap y hm
        · exact hm ▸ hheadR
    exact ih st2 _ (fun e2 he2 => hes e2 (List.mem_cons_of_mem e he2)) hinv2 hheap2

/-- Through the heap loop, every graph node with finite length is reachable
from the start along outbound edges of the initial store. -/
theorem heapLoop_reach (st0 : Store) (g : Graph) (s : Nat) :
    ∀ (fuel : Nat) (st : Store) (vs heap : List Nat) (st' : Store),
      (∀ u, (st u).outbound = (st0 u).outbound) →
      (∀ n ∈ g.nodes, (st n).length ≠ ⊤ → Reaches st0 s n) →
      (∀ y ∈ heap, Reaches st0 s y) →
      heapLoop fuel st vs heap = some st' →
      ∀ n ∈ g.nodes, (st' n).length ≠ ⊤ → Reaches st0 s n := by
  intro fuel
  induction fuel with
  | zero =>
    intro st vs heap st' _ hinv _ h
    simp only [heapLoop] at h
    split at h
    · cases h
      exact hinv
    · cases h
  | succ fuel ih =>
    intro st vs heap st' houts hinv hheap h
    simp only [heapLoop] at h
    split at h
    · cases h
      exact hinv
    · rename_i hemp
      rcases hpop : heappop (nodeLt st) heap with _ | ⟨cur, heap1⟩
      case none =>
        rw [hpop] at h
        cases h
      rw [hpop] at h
      have hne : heap ≠ [] := by
        intro hcon
        rw [hcon] at hemp
        exact hemp rfl
      rcases heappop_eq_some (nodeLt st) heap hne with ⟨x, h2, hx1, hx2, hx3, _⟩
      rw [hpop] at hx1
      have hxc : x = cur ∧ h2 = heap1 := by
        have h1 := congrArg (fun o => Option.map Prod.fst o) hx1
        have h2e := congrArg (fun o => Option.map Prod.snd o) hx1
        simp only [Option.map] at h1 h2e
        exact ⟨(Option.some.inj h1).symm, (Option.some.inj h2e).symm⟩
      rw [hxc.1] at hx2
      rw [hxc.2] at hx3
      simp only at h
      split at h
      · exact ih st vs heap1 st' houts hinv (fun y hy => hheap y (hx3 y hy)) h
      · have hcurR : Reaches st0 s cur := hheap cur hx2
        have hes : ∀ e ∈ (st cur).outbound, e ∈ (st0 cur).outbound := by
          intro e he
          rw [← houts cur]
          exact he
        have hpr := processEdges_reach st0 g s cur (vs ++ [cur]) hcurR
          ((st cur).outbound) st heap1 hes hinv (fun y hy => hheap y (hx3 y hy))
        have hsk := processEdges_skeleton (vs ++ [cur]) cur ((st cur).outbound) st heap1
        have houts2 : ∀ u, ((processEdges (vs ++ [cur]) cur
            ((st cur).outbound) st heap1).1 u).outbound = (st0 u).outbound := by
          intro u
          rw [(hsk u).2.2]
          exact houts u
        exact ih _ _ _ _ houts2 hpr.1 hpr.2 h

/-- Through the simple loop, every graph node with finite length is
reachable from the start along outbound edges of the initial store. -/
theorem simpleLoop_reach (st0 : Store) (g : Graph) (s : Nat) :
    ∀ (fuel : Nat) (st : Store) (vs : List Nat) (st' : Store),
      (∀ u, (st u).outbound = (st0 u).outbound) →
      (∀ v ∈ vs, Reaches st0 s v) →
      (∀ n ∈ g.nodes, (st n).length ≠ ⊤ → Reaches st0 s n) →
      simpleLoop fuel st vs = some st' →
      ∀ n ∈ g.nodes, (st' n).length ≠ ⊤ → Reaches st0 s n := by
  intro fuel
  induction fuel with
  | zero =>
    intro st vs st' _ _ hinv h
    simp only [simpleLoop] at h
    split at h
    · cases h
      exact hinv
    · cases h
  | succ fuel ih =>
    intro st vs st' houts hvs hinv h
    simp only [simpleLoop] at h
    split at h
    · cases h
      exact hinv
    · rename_i e w heq
      rcases get_best_edge_some_mem _ _ _ _ heq with ⟨⟨u, hu, he⟩, _, _⟩
      have hheadR : Reaches st0 s e.head :=
        Reaches.step (hvs u hu) (by rw [← houts u]; exact he)
      have houts2 : ∀ v, ((setLength st e.head w) v).outbound = (st0 v).outbound := by
        intro v
        rw [setLength_outbound]
        exact houts v
      have hvs2 : ∀ v ∈ vs ++ [e.head], Reaches st0 s v := by
        intro v hv
        rcases List.mem_append.1 hv with hm | hm
        · exact hvs v hm
        · rw [List.mem_singleton.1 hm]
          exact hheadR
      have hinv2 : ∀ n ∈ g.nodes, ((setLength st e.head w) n).length ≠ ⊤ →
          Reaches st0 s n := by
        intro n hn hne
        by_cases hhead : n = e.head
        · exact hhead ▸ hheadR
        · rw [setLength_length_ne _ _ _ _ hhead] at hne
          exact hinv n hn hne
      exact ih _ _ _ houts2 hvs2 hinv2 h

/-- C6: after either variant runs on a graph with non-negative edge
weights, every graph node with no directed path from the start node (along
the adjacency structure the algorithms traverse) has final distance
`math.inf`: the initialisation leaves such nodes at infinity and every
subsequent relaxation follows an outbound edge from an already reachable
node. -/
theorem claim6_unreachable (g : Graph) (s : Nat) (st : Store)
    (hw : ∀ e ∈ g.edges, 0 ≤ e.weight)
    (hA : (simple_shortest_path g s st).isSome = true)
    (hB : (heap_shortest_path g s st).isSome = true) :
    ∀ n ∈ g.nodes, ¬ Reaches st s n →
      lengthOf (simple_shortest_path g s st) n = some ⊤ ∧
      lengthOf (heap_shortest_path g s st) n = some ⊤ := by
  rcases hA1 : simpleLoop (g.edges.length + 2) (initLengths g s st) [s] with _ | stA
  · rw [simple_shortest_path, hA1] at hA
    cases hA
  rcases hB1 : heapLoop ((g.edges.length + 2) * (g.edges.length + 2))
      (initLengths g s st) [] [s] with _ | stB
  · rw [heap_shortest_path, hB1] at hB
    cases hB
  intro n hn hnr
  have houts : ∀ u, ((initLengths g s st) u).outbound = (st u).outbound :=
    fun u => initLengths_outbound g s st u
  have hinv : ∀ m ∈ g.nodes, ((initLengths g s st) m).length ≠ ⊤ →
      Reaches st s m := by
    intro m hm hne
    rw [initLengths_length] at hne
    by_cases hms : m = s
    · exact hms ▸ Reaches.refl
    · rw [if_pos ⟨hm, hms⟩] at hne
      exact absurd rfl hne
  have hstart : ∀ y ∈ [s], Reaches st s y := by
    intro y hy
    rw [List.mem_singleton.1 hy]
    exact Reaches.refl
  constructor
  · rw [lengthOf, simple_shortest_path, hA1, Option.map_map]
    simp only [Option.map, Function.comp_apply]
    have hre := simpleLoop_reach st g s _ _ _ _ houts hstart hinv hA1
    by_contra hcon
    exact hnr (hre n hn (fun hc => hcon (by rw [hc])))
  · rw [lengthOf, heap_shortest_path, hB1, Option.map_map]
    simp only [Option.map, Function.comp_apply]
    have hre := heapLoop_reach st g s _ _ _ _ _ houts hinv
      (by intro y hy; rw [List.mem_singleton.1 hy]; exact Reaches.refl) hB1
    by_contra hcon
    exact hnr (hre n hn (fun hc => hcon (by rw [hc])))

/-- In the edgeless store stIso nothing is reachable from 0 but 0. -/
theorem stIso_reach (n : Nat) (h : Reaches stIso 0 n) : n = 0 := by
  induction h with
  | refl => rfl
  | step hr he ih => exact absurd he (List.not_mem_nil _)

/-- Witness for C6 on the two-node edgeless graph: node 1 is unreachable
from start 0 and both runs leave it at infinity. -/
theorem claim6_witness :
    ((∀ e ∈ gTwo.edges, 0 ≤ e.weight) ∧
      (simple_shortest_path gTwo 0 stIso).isSome = true ∧
      (heap_shortest_path gTwo 0 stIso).isSome = true ∧
      (1 : Nat) ∈ gTwo.nodes ∧ ¬ Reaches stIso 0 1) ∧
    (lengthOf (simple_shortest_path gTwo 0 stIso) 1 = some ⊤ ∧
      lengthOf (heap_shortest_path gTwo 0 stIso) 1 = some ⊤) :=
  ⟨⟨by decide, by decide, by decide, by decide,
      fun h => Nat.one_ne_zero (stIso_reach 1 h)⟩,
    claim6_unreachable gTwo 0 stIso (by decide) (by decide) (by decide) 1
      (by decide) (fun h => Nat.one_ne_zero (stIso_reach 1 h))⟩

/-! Termination of both loops on wired graphs (claim C4): neither
operation validates the start node; both always run to completion. -/

theorem nodup_subset_length {l1 l2 : List Nat} (hnd : l1.Nodup)
    (hsub : ∀ x ∈ l1, x ∈ l2) : l1.length ≤ l2.length := by
  calc l1.length = l1.toFinset.card := (List.toFinset_card_of_nodup hnd).symm
    _ ≤ l2.toFinset.card := Finset.card_le_card (fun x hx => by
        rw [List.mem_toFinset] at hx ⊢
        exact hsub x hx)
    _ ≤ l2.length := l2.toFinset_card_le

/-- The node identities that can ever enter the visited list or the heap:
the start node and the heads of the graph's edges. -/
def uniH (g : Graph) (s : Nat) : List Nat := s :: g.edges.map (fun e => e.head)

/-- Number of outbound edges of a node in a wired graph. -/
def outDeg (g : Graph) (u : Nat) : Nat :=
  (g.edges.filter (fun e => decide (e.tail = u))).length

/-- Termination measure for the heap loop: current heap size plus, for each
potentially pushable node not yet visited, its out-degree plus one. -/
def heapMeasure (g : Graph) (s : Nat) (vs heap : List Nat) : Nat :=
  heap.length + ∑ u ∈ ((uniH g s).toFinset.filter (fun u => ¬ u ∈ vs)),
    (outDeg g u + 1)

theorem simpleLoop_terminates (g : Graph) (s : Nat) :
    ∀ (fuel : Nat) (st : Store) (vs : List Nat),
      Wired g st → vs.Nodup → (∀ v ∈ vs, v ∈ uniH g s) →
      (uniH g s).length + 1 - vs.length ≤ fuel →
      ∃ st', simpleLoop fuel st vs = some st' := by
  intro fuel
  induction fuel with
  | zero =>
    intro st vs hwire hnd hsub hbound
    rcases hgbe : get_best_edge st vs with ⟨b, w⟩
    cases b with
    | none => exact ⟨st, by simp [simpleLoop, hgbe]⟩
    | some e =>
      exfalso
      have := nodup_subset_length hnd hsub
      omega
  | succ fuel ih =>
    intro st vs hwire hnd hsub hbound
    rcases hgbe : get_best_edge st vs with ⟨b, w⟩
    cases b with
    | none => exact ⟨st, by simp [simpleLoop, hgbe]⟩
    | some e =>
      rcases get_best_edge_some_mem _ _ _ _ hgbe with ⟨⟨u, hu, he⟩, hhead, _⟩
      have hheadni : ¬ e.head ∈ vs := (idIn_eq_false _ _).1 hhead
      have hheadmem : e.head ∈ uniH g s := by
        rw [hwire u] at he
        exact List.mem_cons_of_mem s
          (List.mem_map_of_mem (fun e => e.head) (List.mem_filter.1 he).1)
      have hwire2 : Wired g (setLength st e.head w) := by
        intro v
        rw [setLength_outbound]
        exact hwire v
      have hnd2 : (vs ++ [e.head]).Nodup := by
        rw [List.nodup_append]
        refine ⟨hnd, List.nodup_singleton _, ?_⟩
        intro a ha hb
        rw [List.mem_singleton.1 hb] at ha
        exact hheadni ha
      have hsub2 : ∀ v ∈ vs ++ [e.head], v ∈ uniH g s := by
        intro v hv
        rcases List.mem_append.1 hv with hm | hm
        · exact hsub v hm
        · exact (List.mem_singleton.1 hm) ▸ hheadmem
      have hbound2 : (uniH g s).length + 1 - (vs ++ [e.head]).length ≤ fuel := by
        rw [List.length_append, List.length_cons, List.length_nil]
        omega
      rcases ih _ _ hwire2 hnd2 hsub2 hbound2 with ⟨st', hst'⟩
      exact ⟨st', by simp only [simpleLoop, hgbe]; exact hst'⟩

/-- Bounding the number of pushes of one edge-processing pass. -/
theorem processEdges_length (vs : List Nat) (cur : Nat) :
    ∀ (es : List Edge) (st : Store) (heap : List Nat),
      (processEdges vs cur es st heap).2.length ≤ heap.length + es.length := by
  intro es
  induction es with
  | nil =>
    intro st heap
    simp [processEdges]
  | cons e es ih =>
    intro st heap
    simp only [processEdges]
    set st2 := if (st cur).length + (e.weight : EV) < (st e.head).length
      then setLength st e.head ((st cur).length + (e.weight : EV)) else st
    have hlen : (if pyIn st2 e.head vs then heap
        else heappush (nodeLt st2) heap e.head).length ≤ heap.length + 1 := by
      split
      · omega
      · rw [heappush_length]
    calc (processEdges vs cur es st2 (if pyIn st2 e.head vs then heap
          else heappush (nodeLt st2) heap e.head)).2.length
        ≤ _ + es.length := ih st2 _
      _ ≤ heap.length + (es.length + 1) := by omega
      _ = heap.length + (e :: es).length := by rw [List.length_cons]

theorem heapLoop_terminates (g : Graph) (s : Nat) :
    ∀ (fuel : Nat) (st : Store) (vs heap : List Nat),
      Wired g st →
      (∀ y ∈ heap, y ∈ uniH g s) →
      heapMeasure g s vs heap ≤ fuel →
      ∃ st', heapLoop fuel st vs heap = some st' := by
  intro fuel
  induction fuel with
  | zero =>
    intro st vs heap _ _ hbound
    have hemp : heap = [] := by
      rw [heapMeasure] at hbound
      exact List.length_eq_zero.1 (by omega)
    exact ⟨st, by simp [heapLoop, hemp]⟩
  | succ fuel ih =>
    intro st vs heap hwire hheap hbound
    by_cases hemp : heap.isEmpty = true
    · exact ⟨st, by simp [heapLoop, hemp]⟩
    · have hne : heap ≠ [] := by
        intro hcon
        rw [hcon] at hemp
        exact hemp rfl
      have hlen1 : 1 ≤ heap.length := by
        rcases heap with _ | ⟨a, l⟩
        · exact absurd rfl hne
        · simp
      rcases heappop_eq_some (nodeLt st) heap hne with ⟨cur, heap1, hpop, hcur, hsub1, hlen⟩
      by_cases hid : idIn cur vs = true
      · have hb2 : heapMeasure g s vs heap1 ≤ fuel := by
          rw [heapMeasure] at hbound ⊢
          omega
        rcases ih st vs heap1 hwire (fun y hy => hheap y (hsub1 y hy)) hb2 with ⟨st', hst'⟩
        refine ⟨st', ?_⟩
        simp only [heapLoop, hpop]
        rw [if_neg (by simp [hemp]), if_pos hid]
        exact hst'
      · have hcurne : ¬ cur ∈ vs := by
          intro hcon
          exact hid ((idIn_iff cur vs).2 hcon)
        set pr := processEdges (vs ++ [cur]) cur ((st cur).outbound) st heap1 with hpr
        have hwire2 : Wired g pr.1 := by
          intro v
          rw [(processEdges_skeleton (vs ++ [cur]) cur ((st cur).outbound) st heap1 v).2.2]
          exact hwire v
        have hheap2 : ∀ y ∈ pr.2, y ∈ uniH g s := by
          intro y hy
          rcases processEdges_heap_mem (vs ++ [cur]) cur ((st cur).outbound) st heap1 y hy
            with hm | hm
          · exact hheap y (hsub1 y hm)
          · rcases hm with ⟨e, he, hy2⟩
            rw [hwire cur] at he
            exact hy2 ▸ List.mem_cons_of_mem s
              (List.mem_map_of_mem (fun e => e.head) (List.mem_filter.1 he).1)
        have houtdeg : ((st cur).outbound).length = outDeg g cur := by
          rw [hwire cur, outDeg]
        have hplen : pr.2.length ≤ heap1.length + outDeg g cur := by
          rw [← houtdeg]
          exact processEdges_length (vs ++ [cur]) cur ((st cur).outbound) st heap1
        have hcurS : cur ∈ (uniH g s).toFinset.filter (fun u => ¬ u ∈ vs) := by
          rw [Finset.mem_filter, List.mem_toFinset]
          exact ⟨hheap cur hcur, hcurne⟩
        have hSeq : (uniH g s).toFinset.filter (fun u => ¬ u ∈ vs ++ [cur])
            = ((uniH g s).toFinset.filter (fun u => ¬ u ∈ vs)).erase cur := by
          ext u
          rw [Finset.mem_erase, Finset.mem_filter, Finset.mem_filter]
          constructor
          · intro ⟨h1, h2⟩
            rw [List.mem_append, List.mem_singleton] at h2
            exact ⟨fun hc => h2 (Or.inr hc), h1, fun hc => h2 (Or.inl hc)⟩
          · intro ⟨h1, h2, h3⟩
            rw [List.mem_append, List.mem_singleton]
            exact ⟨h2, fun hc => hc.elim h3 h1⟩
        have hsum : (∑ u ∈ ((uniH g s).toFinset.filter (fun u => ¬ u ∈ vs)).erase cur,
              (outDeg g u + 1)) + (outDeg g cur + 1)
            = ∑ u ∈ (uniH g s).toFinset.filter (fun u => ¬ u ∈ vs), (outDeg g u + 1) :=
          Finset.sum_erase_add
            ((uniH g s).toFinset.filter (fun u => ¬ u ∈ vs))
            (fun u => outDeg g u + 1) hcurS
        have hb2 : heapMeasure g s (vs ++ [cur]) pr.2 ≤ fuel := by
          rw [heapMeasure] at hbound ⊢
          rw [hSeq]
          omega
        rcases ih pr.1 (vs ++ [cur]) pr.2 hwire2 hheap2 hb2 with ⟨st', hst'⟩
        refine ⟨st', ?_⟩
        simp only [heapLoop, hpop]
        rw [if_neg (by simp [hemp]), if_neg hid]
        exact hst'

/-- C4 amended: neither operation validates start-node membership; invoked
on a wired graph with a start node that is not a member of the graph's node
sequence, both operations run to completion without signalling any error
and produce an answer (treating the start as an extra source whose distance
is initialised to 0). -/
theorem claim4_amended (g : Graph) (s : Nat) (st : Store)
    (hnm : ¬ s ∈ g.nodes) (hwire : Wired g st) :
    (∃ r, simple_shortest_path g s st = some r) ∧
    (∃ r, heap_shortest_path g s st = some r) := by
  have hwire2 : Wired g (initLengths g s st) := by
    intro u
    rw [initLengths_outbound]
    exact hwire u
  have hsub : ∀ v ∈ [s], v ∈ uniH g s := by
    intro v hv
    rw [List.mem_singleton.1 hv]
    exact List.mem_cons_self ..
  have hulen : (uniH g s).length = g.edges.length + 1 := by
    rw [uniH, List.length_cons, List.length_map]
  constructor
  · have hbound : (uniH g s).length + 1 - ([s] : List Nat).length
        ≤ g.edges.length + 2 := by
      rw [hulen]
      simp
    rcases simpleLoop_terminates g s (g.edges.length + 2) (initLengths g s st) [s]
      hwire2 (List.nodup_singleton s) hsub hbound with ⟨st', hst'⟩
    exact ⟨(g, st'), by rw [simple_shortest_path, hst']; rfl⟩
  · have hterm : ∀ u ∈ (uniH g s).toFinset.filter (fun u => ¬ u ∈ ([] : List Nat)),
        outDeg g u + 1 ≤ g.edges.length + 1 := by
      intro u _
      have := List.length_filter_le (fun e => decide (e.tail = u)) g.edges
      rw [outDeg]
      omega
    have h2 := Finset.sum_le_card_nsmul _ _ _ hterm
    rw [smul_eq_mul] at h2
    have h3 : ((uniH g s).toFinset.filter (fun u => ¬ u ∈ ([] : List Nat))).card
        ≤ g.edges.length + 1 := by
      calc ((uniH g s).toFinset.filter (fun u => ¬ u ∈ ([] : List Nat))).card
          ≤ (uniH g s).toFinset.card := Finset.card_filter_le _ _
        _ ≤ (uniH g s).length := (uniH g s).toFinset_card_le
        _ = g.edges.length + 1 := hulen
    have h4 : (∑ u ∈ (uniH g s).toFinset.filter (fun u => ¬ u ∈ ([] : List Nat)),
          (outDeg g u + 1))
        ≤ (g.edges.length + 1) * (g.edges.length + 1) :=
      le_trans h2 (Nat.mul_le_mul_right _ h3)
    have hbound : heapMeasure g s [] [s]
        ≤ (g.edges.length + 2) * (g.edges.length + 2) := by
      rw [heapMeasure]
      have h5 : ([s] : List Nat).length = 1 := rfl
      nlinarith
    rcases heapLoop_terminates g s ((g.edges.length + 2) * (g.edges.length + 2))
      (initLengths g s st) [] [s] hwire2 hsub hbound with ⟨st', hst'⟩
    exact ⟨(g, st'), by rw [heap_shortest_path, hst']; rfl⟩

/-- The store stIso is (vacuously) wired for the edgeless graph gOne. -/
theorem stIso_wired_gOne : Wired gOne stIso := fun _ => rfl

/-- Witness for C4 amended at the one-node graph with non-member start 9. -/
theorem claim4_amended_witness :
    (¬ (9 : Nat) ∈ gOne.nodes ∧ Wired gOne stIso) ∧
    ((∃ r, simple_shortest_path gOne 9 stIso = some r) ∧
      (∃ r, heap_shortest_path gOne 9 stIso = some r)) :=
  ⟨⟨by decide, stIso_wired_gOne⟩,
    claim4_amended gOne 9 stIso (by decide) stIso_wired_gOne⟩

/-- C10: Node equality and order compare only the `length` fields, so the
`==`-based membership test `edge.head not in visited` that gates pushing in
heap_shortest_path (used here through `pyIn` in `processEdges`) reports the
head visited exactly when some visited node's current length equals the
head's; in particular (last conjunct) node 4, never visited, is reported as
visited against the list `[3]` because both nodes have length 5. -/
theorem claim10_eq_by_length :
    (∀ a b : NodeRec, nodeEqb a b = true ↔ a.length = b.length) ∧
    (∀ a b : NodeRec, nodeLtb a b = true ↔ a.length < b.length) ∧
    (∀ (st : Store) (x : Nat) (visited : List Nat),
      pyIn st x visited = true ↔ ∃ v ∈ visited, (st v).length = (st x).length) ∧
    (pyIn stFive 4 [3] = true ∧ idIn 4 [3] = false) := by
  refine ⟨fun a b => by simp [nodeEqb], fun a b => by simp [nodeLtb], ?_, by decide⟩
  intro st x visited
  simp only [pyIn, List.any_eq_true, Bool.or_eq_true, decide_eq_true_eq, nodeEqb]
  constructor
  · rintro ⟨v, hv, h | h⟩
    · exact ⟨v, hv, by rw [h]⟩
    · exact ⟨v, hv, h⟩
  · rintro ⟨v, hv, h⟩
    exact ⟨v, hv, Or.inr h⟩
